import Mathlib

/-!
Verification development for the tokenizer base class of the
language-model-playground repository (lmp/tknzr/_base_tknzr.py).

The data model and the operations are embedded shallowly: the tokenizer
instance is a structure holding the configuration and the two lookup
tables, Python dictionaries become association lists (insertion order
preserved, unique keys), and the two abstract collaborator operations
(split and join) are explicit function parameters.  Helper functions of
the repository that live outside the provided source file
(lmp.tknzr.util.norm, lmp.tknzr.util.trunc_to_max,
lmp.tknzr.util.pad_to_max, and the concrete tknz / dtknz methods of
subclasses) are modelled from the specification, as marked in their
doc comments.
-/

/-- Whitespace test used by the modelled normalizer: ASCII space, tab,
newline, carriage return, vertical tab, form feed, and the exotic
space characters NBSP (U+00A0) and ideographic space (U+3000) stand in
for the whitespace class collapsed by the specification. -/
def isWs (c : Char) : Bool :=
  c.toNat = 32 || c.toNat = 9 || c.toNat = 10 || c.toNat = 13 ||
  c.toNat = 11 || c.toNat = 12 || c.toNat = 160 || c.toNat = 12288

/-- Modelled from the spec: the canonical Unicode normalization step of
lmp.tknzr.util.norm (not under src/) maps compatibility characters to a
canonical representative.  A small concrete representative table stands
in for the full Unicode table: the fullwidth letters U+FF21 and U+FF41
map to their ASCII representatives, every other character is already
canonical. -/
def canonChar (c : Char) : Char :=
  if c.toNat = 65313 then 'A' else if c.toNat = 65345 then 'a' else c

/-- Right fold collapsing every run of whitespace characters to a single
ASCII space and deleting trailing whitespace.  A possible single leading
space is removed afterwards by collapseWs. -/
def collapseR : List Char → List Char
  | [] => []
  | c :: cs =>
    let r := collapseR cs
    if isWs c then
      match r with
      | [] => []
      | a :: _ => if a = ' ' then r else ' ' :: r
    else c :: r

/-- Collapse whitespace runs to one ASCII space and strip both ends. -/
def collapseWs (l : List Char) : List Char :=
  (collapseR l).dropWhile (fun c => c = ' ')

/-- Modelled from the spec: lmp.tknzr.util.norm (not under src/)
performs canonical Unicode normalization, then collapses whitespace
runs to a single ASCII space and strips leading and trailing
whitespace. -/
def utilNorm (s : String) : String := ⟨collapseWs (s.data.map canonChar)⟩

/-- Modelled from the spec: the lowercasing step (str.lower in the
source) is a locale-independent simple case mapping, applied per
character. -/
def strLower (s : String) : String := ⟨s.data.map Char.toLower⟩

/-- Special token strings and ids, the class attributes of BaseTknzr. -/
def bos_tk : String := "[bos]"

def bos_tkid : Nat := 0

def eos_tk : String := "[eos]"

def eos_tkid : Nat := 1

def pad_tk : String := "[pad]"

def pad_tkid : Nat := 2

def unk_tk : String := "[unk]"

def unk_tkid : Nat := 3

/-- Tokenizer instance state: the configuration fields and the two
lookup tables of BaseTknzr.  Python dictionaries are embedded as
association lists in insertion order with unique keys. -/
structure Tknzr where
  is_uncased : Bool
  max_vocab : Int
  min_count : Int
  tk2id : List (String × Nat)
  id2tk : List (Nat × String)

/-- Constructor branch of BaseTknzr.__init__ that seeds the vocabulary
with the four special tokens only (tk2id is None). -/
def mkTknzr (uncased : Bool) (mv mc : Int) : Tknzr :=
  { is_uncased := uncased
    max_vocab := mv
    min_count := mc
    tk2id := [(bos_tk, bos_tkid), (eos_tk, eos_tkid), (pad_tk, pad_tkid), (unk_tk, unk_tkid)]
    id2tk := [(bos_tkid, bos_tk), (eos_tkid, eos_tk), (pad_tkid, pad_tk), (unk_tkid, unk_tk)] }

/-- Constructor branch of BaseTknzr.__init__ that loads a caller
supplied token-to-id table and inverts it (tk2id is not None). -/
def mkTknzrSeeded (uncased : Bool) (mv mc : Int) (seed : List (String × Nat)) : Tknzr :=
  { is_uncased := uncased
    max_vocab := mv
    min_count := mc
    tk2id := seed
    id2tk := seed.map (fun p => (p.2, p.1)) }

/-- BaseTknzr.norm: normalize with lmp.tknzr.util.norm, then lowercase
when is_uncased is set. -/
def Tknzr.norm (t : Tknzr) (txt : String) : String :=
  let norm_txt := utilNorm txt
  if t.is_uncased then strLower norm_txt else norm_txt

/-- Modelled from the spec: the abstract tknz method (implemented only
by subclasses, not under src/) first normalizes the text and then
applies the external split operation, per its documented contract and
section 4.3 of the spec.  The split collaborator is a function
parameter. -/
def Tknzr.tknz (t : Tknzr) (sp : String → List String) (txt : String) : List String :=
  sp (t.norm txt)

/-- Modelled from the spec: lmp.tknzr.util.trunc_to_max (not under
src/) truncates the sequence to max_seq_len entries, the sentinel -1
meaning no truncation. -/
def truncToMax (l : List Nat) (maxSeqLen : Int) : List Nat :=
  if maxSeqLen = -1 then l else l.take maxSeqLen.toNat

/-- Modelled from the spec: lmp.tknzr.util.pad_to_max (not under src/)
right-pads the sequence with the pad id until its length reaches
max_seq_len, the sentinel -1 meaning no padding. -/
def padToMax (l : List Nat) (padId : Nat) (maxSeqLen : Int) : List Nat :=
  if maxSeqLen = -1 then l else l ++ List.replicate (maxSeqLen.toNat - l.length) padId

/-- Token-id list built by BaseTknzr.enc before truncation and padding:
bos id, then the id of each token produced by tknz with unknown tokens
replaced by the unk id, then the eos id. -/
def Tknzr.encIds (t : Tknzr) (sp : String → List String) (txt : String) : List Nat :=
  bos_tkid :: (((t.tknz sp txt).map (fun tk => (List.lookup tk t.tk2id).getD unk_tkid)) ++ [eos_tkid])

/-- BaseTknzr.enc: build the bos/content/eos id list, then truncate and
pad to max_seq_len. -/
def Tknzr.enc (t : Tknzr) (sp : String → List String) (txt : String) (maxSeqLen : Int) : List Nat :=
  padToMax (truncToMax (t.encIds sp txt) maxSeqLen) pad_tkid maxSeqLen

/-- Token list built by BaseTknzr.dec before the external join: when
rm_sp_tks is set, first filter out the bos, eos and pad ids, then map
every remaining id to its token, unknown ids going to the unk token. -/
def Tknzr.decTks (t : Tknzr) (tkids : List Nat) (rmSpTks : Bool) : List String :=
  (if rmSpTks then
      tkids.filter (fun k => !(k == bos_tkid || k == eos_tkid || k == pad_tkid))
    else tkids).map (fun k => (List.lookup k t.id2tk).getD unk_tk)

/-- BaseTknzr.dec: convert ids to tokens and hand them to the external
join operation (the abstract dtknz, a function parameter). -/
def Tknzr.dec (t : Tknzr) (jn : List String → String) (tkids : List Nat) (rmSpTks : Bool) : String :=
  jn (t.decTks tkids rmSpTks)

/-- BaseTknzr.batch_enc: encode every text unpadded; when max_seq_len is
the sentinel -1 replace it by the longest unpadded length, which in the
source is max() over the encoded batch and raises ValueError on an
empty batch — embedded as the none case; then truncate and pad every
sequence to the effective length. -/
def Tknzr.batch_enc (t : Tknzr) (sp : String → List String) (batchTxt : List String)
    (maxSeqLen : Int) : Option (List (List Nat)) :=
  let batchTkids := batchTxt.map (fun txt => t.enc sp txt (-1))
  let eff : Option Int :=
    if maxSeqLen = -1 then
      match batchTkids with
      | [] => none
      | _ :: _ => some ((batchTkids.map List.length).foldl Nat.max 0 : Nat)
    else some maxSeqLen
  eff.map (fun m => batchTkids.map (fun tkids => padToMax (truncToMax tkids m) pad_tkid m))

/-- BaseTknzr.batch_dec: element-wise dec. -/
def Tknzr.batch_dec (t : Tknzr) (jn : List String → String) (batchTkids : List (List Nat))
    (rmSpTks : Bool) : List String :=
  batchTkids.map (fun tkids => t.dec jn tkids rmSpTks)

/-- Largest id currently present in the token-to-id table (0 for the
empty table; the source raises on an empty dictionary, which no claim
exercises since every constructed instance holds the specials). -/
def maxVal (t2i : List (String × Nat)) : Nat :=
  (t2i.map Prod.snd).foldl Nat.max 0

/-- Token stream of BaseTknzr.build_vocab: each text of the batch is
normalized and tokenized (self.tknz(self.norm(txt))) and the streams
are concatenated in batch order. -/
def Tknzr.corpusTokens (t : Tknzr) (sp : String → List String) (batchTxt : List String) :
    List String :=
  batchTxt.flatMap (fun txt => t.tknz sp (t.norm txt))

/-- First-occurrence deduplication, preserving encounter order: the key
order of the Python Counter. -/
def uniqFirst (l : List String) : List String :=
  l.foldl (fun acc s => if s ∈ acc then acc else acc ++ [s]) []

/-- Candidate order of Counter.most_common: count strictly descending,
ties broken by first-encounter index ascending.  The first component is
the encounter index, the third the count. -/
def candOrder (p q : Nat × String × Nat) : Prop :=
  q.2.2 < p.2.2 ∨ (p.2.2 = q.2.2 ∧ p.1 ≤ q.1)

instance : DecidableRel candOrder := fun p q => by
  unfold candOrder
  exact inferInstance

/-- Counter.most_common with the encounter index kept: distinct tokens
paired with their corpus count, sorted by count descending with ties in
first-encounter order.  The comparison is a total order on the distinct
entries, so any correct sort produces the list that the stable Python sort
produces. -/
def mostCommonKeyed (toks : List String) : List (Nat × String × Nat) :=
  List.insertionSort candOrder ((uniqFirst toks).enum.map (fun p : Nat × String => (p.1, p.2, toks.count p.2)))

/-- Counter.most_common: token/count pairs in admission order. -/
def mostCommon (toks : List String) : List (String × Nat) :=
  (mostCommonKeyed toks).map (fun p => p.2)

/-- Admission loop of BaseTknzr.build_vocab over the most_common list:
break when max_id ≥ max_vocab, break when the candidate count is below
min_count, skip candidates already present, otherwise append the
candidate to both tables at the running max_id. -/
def vocabLoop (mv mc : Int) :
    List (String × Nat) → Nat → List (String × Nat) → List (Nat × String) →
    List (String × Nat) × List (Nat × String)
  | [], _, t2i, i2t => (t2i, i2t)
  | (tk, cnt) :: rest, maxId, t2i, i2t =>
    if mv ≤ (maxId : Int) then (t2i, i2t)
    else if (cnt : Int) < mc then (t2i, i2t)
    else if (List.lookup tk t2i).isSome then vocabLoop mv mc rest maxId t2i i2t
    else vocabLoop mv mc rest (maxId + 1) (t2i ++ [(tk, maxId)]) (i2t ++ [(maxId, tk)])

/-- BaseTknzr.build_vocab: count the corpus tokens, iterate them in
most_common order starting from max(existing ids) + 1, and mutate the
two tables in place. -/
def Tknzr.build_vocab (t : Tknzr) (sp : String → List String) (batchTxt : List String) : Tknzr :=
  let r := vocabLoop t.max_vocab t.min_count (mostCommon (t.corpusTokens sp batchTxt))
    (maxVal t.tk2id + 1) t.tk2id t.id2tk
  { t with tk2id := r.1, id2tk := r.2 }

/-- A sequence of build_vocab calls on successive corpora. -/
def Tknzr.buildSeq (t : Tknzr) (sp : String → List String) (batches : List (List String)) : Tknzr :=
  batches.foldl (fun u b => u.build_vocab sp b) t

/-- BaseTknzr.vocab_size: number of entries of the token-to-id table. -/
def Tknzr.vocab_size (t : Tknzr) : Nat := t.tk2id.length

/-! Method-call embedding: each Python method call takes the instance
and returns its result together with the instance after the call, every
assignment to an attribute of self in the source becoming a state
update.  The methods below perform no such assignment, so their state
component records exactly the writes of the source: none.
build_vocab, which does assign, is the contrast case. -/

/-- Method-call form of norm (no attribute assignment in the source). -/
def Tknzr.normM (t : Tknzr) (txt : String) : String × Tknzr := (t.norm txt, t)

/-- Method-call form of enc (no attribute assignment in the source). -/
def Tknzr.encM (t : Tknzr) (sp : String → List String) (txt : String) (maxSeqLen : Int) :
    List Nat × Tknzr := (t.enc sp txt maxSeqLen, t)

/-- Method-call form of dec (no attribute assignment in the source). -/
def Tknzr.decM (t : Tknzr) (jn : List String → String) (tkids : List Nat) (rmSpTks : Bool) :
    String × Tknzr := (t.dec jn tkids rmSpTks, t)

/-- Method-call form of batch_enc (no attribute assignment in the
source: the rebinding of the max_seq_len parameter and of the local
batch_tkids list is local). -/
def Tknzr.batch_encM (t : Tknzr) (sp : String → List String) (batchTxt : List String)
    (maxSeqLen : Int) : Option (List (List Nat)) × Tknzr := (t.batch_enc sp batchTxt maxSeqLen, t)

/-- Method-call form of batch_dec (no attribute assignment in the
source). -/
def Tknzr.batch_decM (t : Tknzr) (jn : List String → String) (batchTkids : List (List Nat))
    (rmSpTks : Bool) : List String × Tknzr := (t.batch_dec jn batchTkids rmSpTks, t)

/-- Method-call form of the vocab_size property (no attribute
assignment in the source). -/
def Tknzr.vocab_sizeM (t : Tknzr) : Nat × Tknzr := (t.vocab_size, t)

/-- Method-call form of build_vocab: the loop assigns to self.tk2id and
self.id2tk, so the state component is the mutated instance. -/
def Tknzr.build_vocabM (t : Tknzr) (sp : String → List String) (batchTxt : List String) :
    Unit × Tknzr := ((), t.build_vocab sp batchTxt)

/-- Concrete whitespace split collaborator used by the concrete
instances of the development: maximal non-whitespace runs, in order. -/
def splitRuns (l : List Char) : List (List Char) :=
  l.foldr
    (fun c acc =>
      if isWs c then [] :: acc
      else
        match acc with
        | [] => [[c]]
        | w :: ws => (c :: w) :: ws)
    []

/-- Whitespace tokenizing split used as the concrete collaborator in
examples and witnesses. -/
def wsSplit (s : String) : List String :=
  ((splitRuns s.data).filter (fun w => !w.isEmpty)).map (fun w => ⟨w⟩)

/-- Space join used as the concrete collaborator in examples. -/
def spJoin (tks : List String) : String := String.intercalate " " tks

/-- Basic sanity examples for the model. -/
example : utilNorm "  a\t\tb  " = "a b" := by decide

example : (mkTknzr true 10 2).norm "ABC" = "abc" := by decide

example : wsSplit "a bc  d" = ["a", "bc", "d"] := by decide

example : (mkTknzr false 10 1).enc wsSplit "a" (-1) = [0, 3, 1] := by decide

example :
    ((mkTknzr false 10 1).build_vocab wsSplit ["a a b"]).tk2id =
      [(bos_tk, 0), (eos_tk, 1), (pad_tk, 2), (unk_tk, 3), ("a", 4), ("b", 5)] := by decide

/-! Character-level lemmas for the normalizer. -/

theorem char_eq_of_toNat_eq {c d : Char} (h : c.toNat = d.toNat) : c = d :=
  Char.ext (UInt32.ext h)

theorem toNat_ofNat_valid (n : Nat) (h : n.isValidChar) : (Char.ofNat n).toNat = n := by
  simp [Char.ofNat, h, Char.ofNatAux, Char.toNat, UInt32.toNat]

theorem toLower_of_not_upper {c : Char} (h : ¬(65 ≤ c.toNat ∧ c.toNat ≤ 90)) :
    c.toLower = c := by
  unfold Char.toLower
  rw [if_neg h]

theorem toNat_toLower (c : Char) :
    c.toLower.toNat = if 65 ≤ c.toNat ∧ c.toNat ≤ 90 then c.toNat + 32 else c.toNat := by
  by_cases h : 65 ≤ c.toNat ∧ c.toNat ≤ 90
  · rw [if_pos h]
    unfold Char.toLower
    rw [if_pos h]
    exact toNat_ofNat_valid _ (Or.inl (by omega))
  · rw [if_neg h, toLower_of_not_upper h]

theorem toLower_toLower (c : Char) : c.toLower.toLower = c.toLower := by
  by_cases h : 65 ≤ c.toNat ∧ c.toNat ≤ 90
  · have h1 : c.toLower.toNat = c.toNat + 32 := by rw [toNat_toLower, if_pos h]
    exact toLower_of_not_upper (by omega)
  · rw [toLower_of_not_upper h, toLower_of_not_upper h]

theorem isWs_true_iff (c : Char) :
    isWs c = true ↔
      (c.toNat = 32 ∨ c.toNat = 9 ∨ c.toNat = 10 ∨ c.toNat = 13 ∨
       c.toNat = 11 ∨ c.toNat = 12 ∨ c.toNat = 160 ∨ c.toNat = 12288) := by
  simp [isWs, or_assoc]

theorem isWs_toLower (c : Char) : isWs c.toLower = isWs c := by
  by_cases h : 65 ≤ c.toNat ∧ c.toNat ≤ 90
  · have h1 : c.toLower.toNat = c.toNat + 32 := by rw [toNat_toLower, if_pos h]
    have h2 : isWs c.toLower = false := by
      rw [← Bool.not_eq_true, isWs_true_iff, h1]
      omega
    have h3 : isWs c = false := by
      rw [← Bool.not_eq_true, isWs_true_iff]
      omega
    rw [h2, h3]
  · rw [toLower_of_not_upper h]

theorem toLower_eq_space_iff (c : Char) : c.toLower = ' ' ↔ c = ' ' := by
  constructor
  · intro h
    by_cases hu : 65 ≤ c.toNat ∧ c.toNat ≤ 90
    · have h1 : c.toLower.toNat = c.toNat + 32 := by rw [toNat_toLower, if_pos hu]
      have h2 : c.toLower.toNat = 32 := by rw [h]; rfl
      omega
    · rw [toLower_of_not_upper hu] at h
      exact h
  · intro h
    rw [h]
    rfl

theorem canonChar_eq_self {c : Char} (h1 : c.toNat ≠ 65313) (h2 : c.toNat ≠ 65345) :
    canonChar c = c := by
  unfold canonChar
  rw [if_neg h1, if_neg h2]

theorem canonChar_canonChar (c : Char) : canonChar (canonChar c) = canonChar c := by
  by_cases h1 : c.toNat = 65313
  · have : canonChar c = 'A' := by unfold canonChar; rw [if_pos h1]
    rw [this]
    rfl
  · by_cases h2 : c.toNat = 65345
    · have : canonChar c = 'a' := by unfold canonChar; rw [if_neg h1, if_pos h2]
      rw [this]
      rfl
    · rw [canonChar_eq_self h1 h2, canonChar_eq_self h1 h2]

theorem canonChar_toLower {c : Char} (h : canonChar c = c) :
    canonChar c.toLower = c.toLower := by
  by_cases hu : 65 ≤ c.toNat ∧ c.toNat ≤ 90
  · have h1 : c.toLower.toNat = c.toNat + 32 := by rw [toNat_toLower, if_pos hu]
    exact canonChar_eq_self (by omega) (by omega)
  · rw [toLower_of_not_upper hu, h]

/-! Whitespace-collapse lemmas: the output shape of collapseR and the
fixpoint property that yields idempotence of the normalizer. -/

/-- Shape of a collapsed character list: every whitespace character in
it is the ASCII space, no two adjacent spaces, and no trailing
space. -/
def NormalWs (l : List Char) : Prop :=
  (∀ c ∈ l, isWs c = true → c = ' ') ∧
  List.Chain' (fun a b => ¬(a = ' ' ∧ b = ' ')) l ∧
  l.getLast? ≠ some ' '

theorem normalWs_nil : NormalWs [] := ⟨by simp, List.chain'_nil, by simp⟩

theorem collapseR_cons_not_ws {c : Char} (cs : List Char) (h : isWs c = false) :
    collapseR (c :: cs) = c :: collapseR cs := by
  simp only [collapseR, h]
  rfl

theorem collapseR_cons_ws_nil {c : Char} (cs : List Char) (h : isWs c = true)
    (hr : collapseR cs = []) : collapseR (c :: cs) = [] := by
  simp only [collapseR, h, hr]
  simp

theorem collapseR_cons_ws_cons {c a : Char} (cs : List Char) {r : List Char}
    (h : isWs c = true) (hr : collapseR cs = a :: r) :
    collapseR (c :: cs) = if a = ' ' then a :: r else ' ' :: a :: r := by
  simp only [collapseR, h, hr]
  simp

theorem isWs_space : isWs ' ' = true := by decide

theorem collapseR_normal (l : List Char) : NormalWs (collapseR l) := by
  induction l with
  | nil => exact normalWs_nil
  | cons c cs ih =>
    obtain ⟨h1, h2, h3⟩ := ih
    cases hws : isWs c with
    | false =>
      rw [collapseR_cons_not_ws cs hws]
      have hcsp : c ≠ ' ' := by
        intro hc
        rw [hc, isWs_space] at hws
        cases hws
      refine ⟨?_, ?_, ?_⟩
      · intro d hd hwd
        rcases List.mem_cons.mp hd with rfl | hd'
        · rw [hwd] at hws
          cases hws
        · exact h1 d hd' hwd
      · cases hr : collapseR cs with
        | nil => exact List.chain'_singleton c
        | cons a r' =>
          rw [hr] at h2
          exact (List.chain'_cons).mpr ⟨fun hp => hcsp hp.1, h2⟩
      · cases hr : collapseR cs with
        | nil =>
          rw [List.getLast?_singleton]
          intro hc
          exact hcsp (Option.some_injective _ hc)
        | cons a r' =>
          rw [List.getLast?_cons_cons]
          rw [hr] at h3
          exact h3
    | true =>
      cases hr : collapseR cs with
      | nil =>
        rw [collapseR_cons_ws_nil cs hws hr]
        exact normalWs_nil
      | cons a r' =>
        rw [collapseR_cons_ws_cons cs hws hr]
        rw [hr] at h1 h2 h3
        by_cases ha : a = ' '
        · rw [if_pos ha]
          exact ⟨h1, h2, h3⟩
        · rw [if_neg ha]
          refine ⟨?_, ?_, ?_⟩
          · intro d hd hwd
            rcases List.mem_cons.mp hd with rfl | hd'
            · rfl
            · exact h1 d hd' hwd
          · exact (List.chain'_cons).mpr ⟨fun hp => ha hp.2, h2⟩
          · rw [List.getLast?_cons_cons]
            exact h3

theorem collapseR_of_normalWs : ∀ {l : List Char}, NormalWs l → collapseR l = l := by
  intro l
  induction l with
  | nil => intro _; rfl
  | cons c cs ih =>
    rintro ⟨h1, h2, h3⟩
    have h2' : List.Chain' (fun a b => ¬(a = ' ' ∧ b = ' ')) cs := h2.tail
    have h3' : cs.getLast? ≠ some ' ' := by
      cases cs with
      | nil => simp
      | cons d cs' =>
        rw [List.getLast?_cons_cons] at h3
        exact h3
    have hcs : NormalWs cs := ⟨fun d hd => h1 d (List.mem_cons_of_mem c hd), h2', h3'⟩
    cases hws : isWs c with
    | false => rw [collapseR_cons_not_ws cs hws, ih hcs]
    | true =>
      have hc : c = ' ' := h1 c (List.mem_cons_self c cs) hws
      cases cs with
      | nil =>
        exfalso
        rw [List.getLast?_singleton] at h3
        exact h3 (by rw [hc])
      | cons d cs' =>
        have hd : d ≠ ' ' := by
          intro hd
          exact ((List.chain'_cons).mp h2).1 ⟨hc, hd⟩
        rw [collapseR_cons_ws_cons _ hws (ih hcs), if_neg hd, hc]

theorem mem_collapseR {a : Char} : ∀ {l : List Char}, a ∈ collapseR l → a = ' ' ∨ a ∈ l := by
  intro l
  induction l with
  | nil => intro h; cases h
  | cons c cs ih =>
    intro ha
    cases hws : isWs c with
    | false =>
      rw [collapseR_cons_not_ws cs hws] at ha
      rcases List.mem_cons.mp ha with rfl | ha'
      · exact Or.inr (List.mem_cons_self _ _)
      · rcases ih ha' with h | h
        · exact Or.inl h
        · exact Or.inr (List.mem_cons_of_mem c h)
    | true =>
      cases hr : collapseR cs with
      | nil =>
        rw [collapseR_cons_ws_nil cs hws hr] at ha
        cases ha
      | cons b r' =>
        rw [collapseR_cons_ws_cons cs hws hr] at ha
        by_cases hb : b = ' '
        · rw [if_pos hb] at ha
          rcases ih (hr ▸ ha) with h | h
          · exact Or.inl h
          · exact Or.inr (List.mem_cons_of_mem c h)
        · rw [if_neg hb] at ha
          rcases List.mem_cons.mp ha with rfl | ha'
          · exact Or.inl rfl
          · rcases ih (hr ▸ ha') with h | h
            · exact Or.inl h
            · exact Or.inr (List.mem_cons_of_mem c h)

theorem dropWhile_head?_false {p : Char → Bool} :
    ∀ (l : List Char) {a : Char}, (l.dropWhile p).head? = some a → p a = false := by
  intro l
  induction l with
  | nil => intro a h; cases h
  | cons c cs ih =>
    intro a h
    rw [List.dropWhile_cons] at h
    by_cases hp : p c = true
    · rw [if_pos hp] at h
      exact ih h
    · rw [if_neg hp] at h
      have : c = a := Option.some_injective _ h
      rw [← this]
      exact Bool.not_eq_true _ ▸ hp

theorem head?_collapseWs (l : List Char) : (collapseWs l).head? ≠ some ' ' := by
  intro h
  have := dropWhile_head?_false (collapseR l) h
  simp at this

theorem getLast?_of_suffix {l₁ l₂ : List Char} {a : Char} (h : l₁ <:+ l₂)
    (ha : l₁.getLast? = some a) : l₂.getLast? = some a := by
  obtain ⟨pre, rfl⟩ := h
  rw [List.getLast?_append, ha]
  rfl

theorem normalWs_collapseWs (l : List Char) : NormalWs (collapseWs l) := by
  obtain ⟨h1, h2, h3⟩ := collapseR_normal l
  have hs : collapseWs l <:+ collapseR l := List.dropWhile_suffix _
  refine ⟨fun c hc => h1 c (hs.subset hc), h2.suffix hs, ?_⟩
  intro hlast
  exact h3 (getLast?_of_suffix hs hlast)

theorem collapseWs_of_normal {l : List Char} (h : NormalWs l) (hh : l.head? ≠ some ' ') :
    collapseWs l = l := by
  unfold collapseWs
  rw [collapseR_of_normalWs h]
  cases l with
  | nil => rfl
  | cons c cs =>
    rw [List.dropWhile_cons, if_neg]
    simp only [List.head?_cons, ne_eq, Option.some.injEq] at hh
    simp [hh]

theorem map_eq_self_of_mem {f : Char → Char} {l : List Char} (h : ∀ a ∈ l, f a = a) :
    l.map f = l := by
  rw [List.map_congr_left h]
  exact List.map_id' l

theorem canonChar_of_mem_collapseWs_map {x : List Char} {a : Char}
    (ha : a ∈ collapseWs (x.map canonChar)) : canonChar a = a := by
  have hmem : a ∈ collapseR (x.map canonChar) :=
    (List.dropWhile_suffix _).subset ha
  rcases mem_collapseR hmem with h | h
  · rw [h]
    rfl
  · obtain ⟨b, _, rfl⟩ := List.mem_map.mp h
    exact canonChar_canonChar b

theorem normalWs_map_toLower {y : List Char} (h : NormalWs y) :
    NormalWs (y.map Char.toLower) := by
  obtain ⟨h1, h2, h3⟩ := h
  refine ⟨?_, ?_, ?_⟩
  · intro d hd hwd
    obtain ⟨b, hb, rfl⟩ := List.mem_map.mp hd
    rw [isWs_toLower] at hwd
    rw [h1 b hb hwd]
    rfl
  · rw [List.chain'_map]
    refine h2.imp ?_
    intro a b hab hc
    exact hab ⟨(toLower_eq_space_iff a).mp hc.1, (toLower_eq_space_iff b).mp hc.2⟩
  · rw [List.getLast?_map]
    intro hc
    cases hy : y.getLast? with
    | none => rw [hy] at hc; cases hc
    | some a =>
      rw [hy] at hc
      have : a.toLower = ' ' := Option.some_injective _ hc
      exact h3 (hy.trans (congrArg some ((toLower_eq_space_iff a).mp this)))

theorem head?_map_toLower_ne_space {y : List Char} (h : y.head? ≠ some ' ') :
    (y.map Char.toLower).head? ≠ some ' ' := by
  rw [List.head?_map]
  intro hc
  cases hy : y.head? with
  | none => rw [hy] at hc; cases hc
  | some a =>
    rw [hy] at hc
    have : a.toLower = ' ' := Option.some_injective _ hc
    exact h (hy.trans (congrArg some ((toLower_eq_space_iff a).mp this)))

/-- C9 core on raw character lists, uncased-free part: the collapse of
the canonical map is a fixpoint of the utilNorm character pipeline. -/
theorem collapseWs_canonMap_collapseWs (x : List Char) :
    collapseWs ((collapseWs (x.map canonChar)).map canonChar) = collapseWs (x.map canonChar) := by
  rw [map_eq_self_of_mem (fun a ha => canonChar_of_mem_collapseWs_map ha)]
  exact collapseWs_of_normal (normalWs_collapseWs _) (head?_collapseWs _)

/-- C9 core, lowercased part: the lowered collapse of the canonical map
is also a fixpoint of the utilNorm character pipeline. -/
theorem collapseWs_canonMap_lower_fix (x : List Char) :
    collapseWs (((collapseWs (x.map canonChar)).map Char.toLower).map canonChar) =
      (collapseWs (x.map canonChar)).map Char.toLower := by
  rw [map_eq_self_of_mem]
  · exact collapseWs_of_normal (normalWs_map_toLower (normalWs_collapseWs _))
      (head?_map_toLower_ne_space (head?_collapseWs _))
  · intro a ha
    obtain ⟨b, hb, rfl⟩ := List.mem_map.mp ha
    exact canonChar_toLower (canonChar_of_mem_collapseWs_map hb)

/-! Encoder helper lemmas shared between claims. -/

theorem enc_no_limit (t : Tknzr) (sp : String → List String) (txt : String) :
    t.enc sp txt (-1) = t.encIds sp txt := by
  simp [Tknzr.enc, padToMax, truncToMax]

theorem encIds_eq (t : Tknzr) (sp : String → List String) (txt : String) :
    t.encIds sp txt =
      bos_tkid ::
        (((sp (t.norm txt)).map (fun tk => (List.lookup tk t.tk2id).getD unk_tkid)) ++
          [eos_tkid]) := rfl

theorem padTrunc_length (u : List Nat) (L : Int) (h : L ≠ -1) :
    (padToMax (truncToMax u L) pad_tkid L).length = L.toNat := by
  unfold padToMax truncToMax
  rw [if_neg h, if_neg h, List.length_append, List.length_replicate, List.length_take]
  omega

/-- C9: normalize is pure and total and idempotent.  The embedding of
BaseTknzr.norm is a total function, and for every string x and either
setting of the case-folding flag, norm (norm x) = norm x. -/
theorem norm_idempotent (t : Tknzr) (x : String) : t.norm (t.norm x) = t.norm x := by
  unfold Tknzr.norm
  cases hu : t.is_uncased with
  | false =>
    simp only [hu, Bool.false_eq_true, if_false]
    show (⟨collapseWs ((collapseWs (x.data.map canonChar)).map canonChar)⟩ : String) =
      ⟨collapseWs (x.data.map canonChar)⟩
    rw [collapseWs_canonMap_collapseWs]
  | true =>
    simp only [hu, if_true]
    show (⟨(collapseWs (((collapseWs (x.data.map canonChar)).map Char.toLower).map
        canonChar)).map Char.toLower⟩ : String) =
      ⟨(collapseWs (x.data.map canonChar)).map Char.toLower⟩
    rw [collapseWs_canonMap_lower_fix, List.map_map]
    congr 1
    exact List.map_congr_left (fun a _ => toLower_toLower a)

/-- C2: the token sequence whose ids the encoder emits is exactly the
external split operation applied to the normalized text: with no length
limit, enc returns the bos id, the looked-up id of every token of
sp (norm txt) with unknown tokens going to the unk id, and the eos id.
In the source enc delegates normalization to the abstract tknz
collaborator, whose documented contract is to normalize and then
split. -/
theorem enc_tokens_are_split_of_norm (t : Tknzr) (sp : String → List String) (txt : String) :
    t.enc sp txt (-1) =
      bos_tkid ::
        (((sp (t.norm txt)).map (fun tk => (List.lookup tk t.tk2id).getD unk_tkid)) ++
          [eos_tkid]) := by
  rw [enc_no_limit, encIds_eq]

/-- C5: padding and truncation placement.  For any non-sentinel max
length L, writing u for the unpadded encoding and k for its length:
when k < L the result is u followed by L - k pad ids, when L < k the
result is the first L entries of u, and whenever L ≥ 1 the first entry
is still the bos id. -/
theorem enc_pad_and_trunc (t : Tknzr) (sp : String → List String) (txt : String) (L : Int)
    (hL : L ≠ -1) :
    (((t.enc sp txt (-1)).length : Int) < L →
      t.enc sp txt L =
        t.enc sp txt (-1) ++
          List.replicate (L.toNat - (t.enc sp txt (-1)).length) pad_tkid) ∧
    (L < ((t.enc sp txt (-1)).length : Int) →
      t.enc sp txt L = (t.enc sp txt (-1)).take L.toNat) ∧
    (1 ≤ L → (t.enc sp txt L).head? = some bos_tkid) := by
  rw [enc_no_limit]
  refine ⟨?_, ?_, ?_⟩
  · intro hk
    unfold Tknzr.enc padToMax truncToMax
    rw [if_neg hL, if_neg hL, List.take_of_length_le (by omega)]
  · intro hk
    unfold Tknzr.enc padToMax truncToMax
    rw [if_neg hL, if_neg hL]
    have hlen : (List.take L.toNat (t.encIds sp txt)).length = L.toNat := by
      rw [List.length_take]
      omega
    rw [hlen, Nat.sub_self, List.replicate_zero, List.append_nil]
  · intro h1
    unfold Tknzr.enc padToMax truncToMax
    rw [if_neg hL, if_neg hL, encIds_eq]
    obtain ⟨m, hm⟩ : ∃ m, L.toNat = m + 1 := ⟨L.toNat - 1, by omega⟩
    rw [hm, List.take_succ_cons]
    rfl

/-- C6: fixed-length invariant.  For any max length L ≥ 2 and any text,
the encoding has length exactly L. -/
theorem enc_length_eq_max (t : Tknzr) (sp : String → List String) (txt : String) (L : Int)
    (hL : 2 ≤ L) : ((t.enc sp txt L).length : Int) = L := by
  unfold Tknzr.enc
  rw [padTrunc_length _ _ (by omega)]
  omega

/-- C10: only construction and build_vocab write the instance state.
In the method-call embedding, norm, enc, dec, batch_enc, batch_dec and
vocab_size return the instance unchanged, so in particular the two
lookup tables and the three configuration fields are untouched. -/
theorem query_methods_preserve_state :
    (∀ (t : Tknzr) (txt : String), (t.normM txt).2 = t) ∧
    (∀ (t : Tknzr) (sp : String → List String) (txt : String) (L : Int),
      (t.encM sp txt L).2 = t) ∧
    (∀ (t : Tknzr) (jn : List String → String) (tkids : List Nat) (rm : Bool),
      (t.decM jn tkids rm).2 = t) ∧
    (∀ (t : Tknzr) (sp : String → List String) (batch : List String) (L : Int),
      (t.batch_encM sp batch L).2 = t) ∧
    (∀ (t : Tknzr) (jn : List String → String) (batch : List (List Nat)) (rm : Bool),
      (t.batch_decM jn batch rm).2 = t) ∧
    (∀ t : Tknzr, t.vocab_sizeM.2 = t) :=
  ⟨fun _ _ => rfl, fun _ _ _ _ => rfl, fun _ _ _ _ => rfl, fun _ _ _ _ => rfl,
   fun _ _ _ _ => rfl, fun _ => rfl⟩

/-- Witness for C5 at concrete inputs: the tokenizer holding only the
four specials encodes the single unknown token text to three ids, which
are padded at L = 5, truncated at L = 2, and keep bos first. -/
theorem enc_pad_and_trunc_witness :
    ((mkTknzr false 10 1).enc wsSplit "a" 5 =
      (mkTknzr false 10 1).enc wsSplit "a" (-1) ++
        List.replicate ((5:Int).toNat - ((mkTknzr false 10 1).enc wsSplit "a" (-1)).length)
          pad_tkid) ∧
    ((mkTknzr false 10 1).enc wsSplit "a" 2 =
      ((mkTknzr false 10 1).enc wsSplit "a" (-1)).take (2:Int).toNat) ∧
    ((mkTknzr false 10 1).enc wsSplit "a" 5).head? = some bos_tkid :=
  ⟨(enc_pad_and_trunc (mkTknzr false 10 1) wsSplit "a" 5 (by decide)).1 (by decide),
   (enc_pad_and_trunc (mkTknzr false 10 1) wsSplit "a" 2 (by decide)).2.1 (by decide),
   (enc_pad_and_trunc (mkTknzr false 10 1) wsSplit "a" 5 (by decide)).2.2 (by decide)⟩

/-- Witness for C6 at a concrete input. -/
theorem enc_length_eq_max_witness :
    (((mkTknzr false 10 1).enc wsSplit "a b c" 4).length : Int) = 4 :=
  enc_length_eq_max (mkTknzr false 10 1) wsSplit "a b c" 4 (by decide)

/-- C7: unknown-token and unknown-id substitution, and the special-id
filter of decode.  Encoding puts the unk id at the position of every
out-of-vocabulary token; plain decoding puts the unk token at the
position of every id missing from the inverse table; decoding with
remove_special equals plain decoding of the ids outside the set
containing exactly the bos, eos and pad ids; and every unk id of the
input survives remove_special and decodes to the unk token (stated as a
count bound, under the instance mapping the unk id to the unk token). -/
theorem unknown_goes_to_unk :
    (∀ (t : Tknzr) (sp : String → List String) (txt : String) (i : Nat) (tk : String),
      (sp (t.norm txt)).get? i = some tk → List.lookup tk t.tk2id = none →
      (t.enc sp txt (-1)).get? (i + 1) = some unk_tkid) ∧
    (∀ (t : Tknzr) (ids : List Nat) (i : Nat) (k : Nat),
      ids.get? i = some k → List.lookup k t.id2tk = none →
      (t.decTks ids false).get? i = some unk_tk) ∧
    (∀ (t : Tknzr) (ids : List Nat),
      t.decTks ids true =
        t.decTks (ids.filter (fun k => decide (k ∉ [bos_tkid, eos_tkid, pad_tkid]))) false) ∧
    (∀ (t : Tknzr) (ids : List Nat), List.lookup unk_tkid t.id2tk = some unk_tk →
      ids.count unk_tkid ≤ (t.decTks ids true).count unk_tk) := by
  refine ⟨?_, ?_, ?_, ?_⟩
  · intro t sp txt i tk hget hlook
    rw [enc_no_limit, encIds_eq, List.get?_cons_succ]
    have hi : i < (sp (t.norm txt)).length := (List.get?_eq_some.mp hget).1
    rw [List.get?_eq_getElem?, List.getElem?_append, if_pos (by simpa using hi),
      List.getElem?_map, ← List.get?_eq_getElem?, hget]
    simp [hlook]
  · intro t ids i k hget hlook
    show ((ids.map (fun k => (List.lookup k t.id2tk).getD unk_tk)).get? i) = some unk_tk
    rw [List.get?_eq_getElem?, List.getElem?_map, ← List.get?_eq_getElem?, hget]
    simp [hlook]
  · intro t ids
    unfold Tknzr.decTks
    rw [if_pos rfl, if_neg (by simp)]
    congr 1
    refine List.filter_congr ?_
    intro k _
    cases h0 : k == 0 <;> cases h1 : k == 1 <;> cases h2 : k == 2 <;>
      simp_all [bos_tkid, eos_tkid, pad_tkid]
  · intro t ids hunk
    unfold Tknzr.decTks
    rw [if_pos rfl]
    have h1 : ids.count unk_tkid =
        (ids.filter (fun k => !(k == bos_tkid || k == eos_tkid || k == pad_tkid))).count
          unk_tkid := by
      rw [List.count_filter]
      decide
    rw [h1, List.count_eq_countP, List.count_eq_countP, List.countP_map]
    refine List.countP_mono_left ?_
    intro k _ hk
    have hk' : k = unk_tkid := by simpa using hk
    subst hk'
    simp [hunk]

/-- C8: batch uniformity.  Every sequence returned by batch_enc has the
same length: for a nonempty batch with the no-limit sentinel that
common length is the maximum length among the unpadded encodings of the
batch (computed before any per-item truncation or padding); for an
explicit max length it is that length. -/
theorem batch_enc_of_ne (t : Tknzr) (sp : String → List String) (batch : List String)
    {L : Int} (hL : L ≠ -1) :
    t.batch_enc sp batch L =
      some ((batch.map (fun txt => t.enc sp txt (-1))).map
        (fun u => padToMax (truncToMax u L) pad_tkid L)) := by
  simp [Tknzr.batch_enc, hL]

theorem batch_enc_cons_eq (t : Tknzr) (sp : String → List String) (b : String)
    (bs : List String) :
    t.batch_enc sp (b :: bs) (-1) =
      some (((b :: bs).map (fun txt => t.enc sp txt (-1))).map
        (fun u =>
          padToMax
            (truncToMax u
              (((((b :: bs).map (fun txt => t.enc sp txt (-1))).map List.length).foldl
                  Nat.max 0 : Nat) : Int))
            pad_tkid
            (((((b :: bs).map (fun txt => t.enc sp txt (-1))).map List.length).foldl
                Nat.max 0 : Nat) : Int))) := rfl

theorem padTrunc_length_natCast (u : List Nat) (M : Nat) :
    (padToMax (truncToMax u (M : Int)) pad_tkid (M : Int)).length = M := by
  rw [padTrunc_length _ _ (by omega)]
  omega

theorem batch_enc_uniform_length :
    (∀ (t : Tknzr) (sp : String → List String) (b : String) (bs : List String),
      (t.batch_enc sp (b :: bs) (-1)).isSome = true ∧
      ((t.batch_enc sp (b :: bs) (-1)).getD []).all
        (fun ys => ys.length ==
          (((b :: bs).map (fun txt => (t.enc sp txt (-1)).length)).foldl Nat.max 0)) = true) ∧
    (∀ (t : Tknzr) (sp : String → List String) (batch : List String) (L : Int), L ≠ -1 →
      ((t.batch_enc sp batch L).getD []).all (fun ys => ys.length == L.toNat) = true) := by
  constructor
  · intro t sp b bs
    rw [batch_enc_cons_eq]
    refine ⟨rfl, ?_⟩
    rw [Option.getD_some, List.all_eq_true]
    intro ys hys
    obtain ⟨u, _, rfl⟩ := List.mem_map.mp hys
    rw [padTrunc_length_natCast]
    simp [List.map_map]
    rfl
  · intro t sp batch L hL
    rw [batch_enc_of_ne t sp batch hL, Option.getD_some, List.all_eq_true]
    intro ys hys
    obtain ⟨u, _, rfl⟩ := List.mem_map.mp hys
    rw [padTrunc_length _ _ hL]
    simp

/-- Witness for the explicit-length part of C8 at a concrete input. -/
theorem batch_enc_uniform_length_witness :
    (((mkTknzr false 10 1).batch_enc wsSplit ["a", "b c"] 4).getD []).all
      (fun ys => ys.length == (4 : Int).toNat) = true :=
  batch_enc_uniform_length.2 (mkTknzr false 10 1) wsSplit ["a", "b c"] 4 (by decide)

/-- C3 counterexample: batch_enc does raise on data content.  On the
empty batch with the default no-limit sentinel the source evaluates
max() over an empty sequence, a ValueError, embedded as the none
result. -/
theorem batch_enc_empty_batch_fails :
    (mkTknzr false 10 1).batch_enc wsSplit [] (-1) = none := rfl

/-- C3 amended: encode, decode, batch_decode and build_vocabulary are
total on data content (they are total functions of the embedding, all
vocabulary misses resolving to the unk sentinel), and batch_enc
succeeds exactly when the batch is nonempty or an explicit max length
is supplied — the empty batch with the no-limit sentinel is the one
failing data input. -/
theorem batch_enc_isSome_iff (t : Tknzr) (sp : String → List String) (batch : List String)
    (L : Int) : (t.batch_enc sp batch L).isSome = true ↔ (batch ≠ [] ∨ L ≠ -1) := by
  by_cases hL : L = -1
  · subst hL
    cases batch with
    | nil =>
      rw [show t.batch_enc sp [] (-1) = none from rfl]
      simp
    | cons b bs =>
      rw [batch_enc_cons_eq]
      simp
  · rw [batch_enc_of_ne t sp batch hL]
    simp [hL]

instance : IsTrans (Nat × String × Nat) candOrder :=
  ⟨by
    intro a b c hab hbc
    unfold candOrder at *
    omega⟩

instance : IsTotal (Nat × String × Nat) candOrder :=
  ⟨by
    intro a b
    unfold candOrder
    omega⟩

/-- C4: build_vocabulary iterates candidates in strictly descending
frequency order with ties broken by first-encounter order, and on the
corpus with frequencies a:5, b:5, c:2 (a seen before b) and
min_frequency 3 it admits a (id 4) then b (id 5) and never c.  The
ordering part is stated on the most_common list the admission loop
consumes: its entries are pairwise either strictly descending in count
or tied with strictly ascending first-encounter index. -/
theorem most_common_order_and_example :
    (∀ toks : List String,
      List.Pairwise (fun p q : Nat × String × Nat => q.2.2 < p.2.2 ∨ (p.2.2 = q.2.2 ∧ p.1 < q.1))
        (mostCommonKeyed toks)) ∧
    (List.lookup "a"
        (((mkTknzr false 10 3).build_vocab wsSplit ["a a a a a b b b b b c c"]).tk2id) =
      some 4 ∧
    List.lookup "b"
        (((mkTknzr false 10 3).build_vocab wsSplit ["a a a a a b b b b b c c"]).tk2id) =
      some 5 ∧
    List.lookup "c"
        (((mkTknzr false 10 3).build_vocab wsSplit ["a a a a a b b b b b c c"]).tk2id) =
      none) := by
  constructor
  · intro toks
    have hs : List.Pairwise candOrder (mostCommonKeyed toks) :=
      List.sorted_insertionSort candOrder _
    have hperm :
        (mostCommonKeyed toks).Perm
          ((uniqFirst toks).enum.map (fun p : Nat × String => (p.1, p.2, toks.count p.2))) :=
      List.perm_insertionSort candOrder _
    have hnodup : ((mostCommonKeyed toks).map Prod.fst).Nodup := by
      rw [(hperm.map Prod.fst).nodup_iff, List.map_map]
      have : (Prod.fst ∘ fun p : Nat × String =>
          (p.1, p.2, toks.count p.2)) = Prod.fst := rfl
      rw [this, List.enum_map_fst]
      exact List.nodup_range _
    have hne : List.Pairwise (fun p q : Nat × String × Nat => p.1 ≠ q.1)
        (mostCommonKeyed toks) := by
      exact List.pairwise_map.mp hnodup
    exact (hs.and hne).imp (fun hpq => by
      obtain ⟨hord, hne'⟩ := hpq
      unfold candOrder at hord
      omega)
  · refine ⟨by decide, by decide, by decide⟩

/-- Largest-id helper: appending one entry takes the maximum with its
id. -/
theorem maxVal_append_one (t2i : List (String × Nat)) (p : String × Nat) :
    maxVal (t2i ++ [p]) = max (maxVal t2i) p.2 := by
  unfold maxVal
  rw [List.map_append, List.foldl_append]
  rfl

/-- The admission loop does nothing when the running next id has
already reached max_vocab. -/
theorem vocabLoop_stop (mv mc : Int) (cands : List (String × Nat)) (m : Nat)
    (t2i : List (String × Nat)) (i2t : List (Nat × String)) (h : mv ≤ (m : Int)) :
    vocabLoop mv mc cands m t2i i2t = (t2i, i2t) := by
  cases cands with
  | nil => rfl
  | cons c rest =>
    obtain ⟨tk, cnt⟩ := c
    unfold vocabLoop
    rw [if_pos h]

/-- Cap invariant of the admission loop: starting from a table whose
length is at most the running next id, which itself is one more than
the largest stored id, the final table length is bounded by the maximum
of the initial length and max_vocab, and the length bound against the
largest id is preserved. -/
theorem vocabLoop_cap (mv mc : Int) :
    ∀ (cands : List (String × Nat)) (m : Nat) (t2i : List (String × Nat))
      (i2t : List (Nat × String)),
      t2i.length ≤ m → m = maxVal t2i + 1 →
      (vocabLoop mv mc cands m t2i i2t).1.length ≤ max t2i.length mv.toNat ∧
      (vocabLoop mv mc cands m t2i i2t).1.length ≤
        maxVal (vocabLoop mv mc cands m t2i i2t).1 + 1 := by
  intro cands
  induction cands with
  | nil =>
    intro m t2i i2t h1 h2
    constructor
    · show t2i.length ≤ max t2i.length mv.toNat
      exact le_max_left _ _
    · show t2i.length ≤ maxVal t2i + 1
      omega
  | cons c rest ih =>
    intro m t2i i2t h1 h2
    obtain ⟨tk, cnt⟩ := c
    by_cases hstop : mv ≤ (m : Int)
    · rw [vocabLoop_stop _ _ _ _ _ _ hstop]
      constructor
      · show t2i.length ≤ max t2i.length mv.toNat
        exact le_max_left _ _
      · show t2i.length ≤ maxVal t2i + 1
        omega
    · unfold vocabLoop
      rw [if_neg hstop]
      by_cases hcnt : (cnt : Int) < mc
      · rw [if_pos hcnt]
        constructor
        · show t2i.length ≤ max t2i.length mv.toNat
          exact le_max_left _ _
        · show t2i.length ≤ maxVal t2i + 1
          omega
      · rw [if_neg hcnt]
        by_cases hmem : (List.lookup tk t2i).isSome = true
        · rw [if_pos hmem]
          exact ih m t2i i2t h1 h2
        · rw [if_neg hmem]
          have hmax : maxVal (t2i ++ [(tk, m)]) = m := by
            rw [maxVal_append_one]
            exact max_eq_right (by omega)
          have h1' : (t2i ++ [(tk, m)]).length ≤ m + 1 := by
            rw [List.length_append]
            simp
            omega
          have h2' : m + 1 = maxVal (t2i ++ [(tk, m)]) + 1 := by rw [hmax]
          have hrec := ih (m + 1) (t2i ++ [(tk, m)]) (i2t ++ [(m, tk)]) h1' h2'
          rw [List.length_append] at hrec
          simp only [List.length_singleton] at hrec
          constructor
          · have hm1 : m + 1 ≤ mv.toNat := by omega
            have hmax1 : max (t2i.length + 1) mv.toNat = mv.toNat :=
              max_eq_right (by omega)
            rw [hmax1] at hrec
            exact le_trans hrec.1 (le_max_right _ _)
          · exact hrec.2

/-- Single build_vocab call: under the length-versus-largest-id
invariant, the new size is bounded by the maximum of the old size and
max_vocab, and the invariant is preserved. -/
theorem build_vocab_cap_step (t : Tknzr) (sp : String → List String) (batch : List String)
    (h1 : t.tk2id.length ≤ maxVal t.tk2id + 1) :
    (t.build_vocab sp batch).tk2id.length ≤ max t.tk2id.length t.max_vocab.toNat ∧
    (t.build_vocab sp batch).tk2id.length ≤ maxVal (t.build_vocab sp batch).tk2id + 1 :=
  vocabLoop_cap t.max_vocab t.min_count (mostCommon (t.corpusTokens sp batch))
    (maxVal t.tk2id + 1) t.tk2id t.id2tk (by omega) rfl

/-- Cap over a whole sequence of builds. -/
theorem buildSeq_cap (t : Tknzr) (sp : String → List String) (batches : List (List String))
    (h1 : t.tk2id.length ≤ maxVal t.tk2id + 1) (h2 : (t.vocab_size : Int) ≤ t.max_vocab) :
    ((t.buildSeq sp batches).vocab_size : Int) ≤ t.max_vocab := by
  induction batches generalizing t with
  | nil => exact h2
  | cons b bs ih =>
    show ((Tknzr.buildSeq (t.build_vocab sp b) sp bs).vocab_size : Int) ≤ t.max_vocab
    have hstep := build_vocab_cap_step t sp b h1
    have hmv : (t.build_vocab sp b).max_vocab = t.max_vocab := rfl
    have h2' : ((t.build_vocab sp b).vocab_size : Int) ≤ (t.build_vocab sp b).max_vocab := by
      rw [hmv]
      unfold Tknzr.vocab_size at h2 ⊢
      have hmax := hstep.1
      have hmv0 : (0 : Int) ≤ t.max_vocab := le_trans (Int.natCast_nonneg _) h2
      have htn : ((t.max_vocab.toNat : Nat) : Int) = t.max_vocab := Int.toNat_of_nonneg hmv0
      rcases Nat.le_total t.tk2id.length t.max_vocab.toNat with hc | hc
      · rw [max_eq_right hc] at hmax
        omega
      · rw [max_eq_left hc] at hmax
        omega
    have := ih (t.build_vocab sp b) hstep.2 h2'
    rw [hmv] at this
    exact this

/-- C1 counterexample: the loop guard compares max_vocab against
max(existing ids) + 1, not against the vocabulary size.  First
instance: seeded with five tokens where "x" holds the non-contiguous id
10 and max_vocab = 8, building on ["a"] admits nothing — the loop stops
with size 5 < 8 even though the candidate "a" has frequency ≥
min_count, so the loop does not stop "exactly when size ≥
max_vocab_size".  Second instance: seeded with six tokens and
max_vocab = 5, the size after a build is 6 > 5, so size() ≤
max_vocab_size does not hold for every seeded instance. -/
theorem build_vocab_cap_cex :
    (List.lookup "a"
        (((mkTknzrSeeded false 8 1
              [(bos_tk, 0), (eos_tk, 1), (pad_tk, 2), (unk_tk, 3), ("x", 10)]).build_vocab
            wsSplit ["a"]).tk2id) = none ∧
      ((mkTknzrSeeded false 8 1
            [(bos_tk, 0), (eos_tk, 1), (pad_tk, 2), (unk_tk, 3), ("x", 10)]).build_vocab
          wsSplit ["a"]).vocab_size = 5) ∧
    ((mkTknzrSeeded false 5 1
          [(bos_tk, 0), (eos_tk, 1), (pad_tk, 2), (unk_tk, 3), ("x", 4), ("y", 5)]).build_vocab
        wsSplit []).vocab_size = 6 := by
  decide

/-- Build_vocab leaves the table unchanged as soon as max(ids) + 1 has
reached max_vocab. -/
theorem build_vocab_tk2id_eq_of_full (t : Tknzr) (sp : String → List String)
    (batch : List String) (h : t.max_vocab ≤ ((maxVal t.tk2id + 1 : Nat) : Int)) :
    (t.build_vocab sp batch).tk2id = t.tk2id := by
  show (vocabLoop t.max_vocab t.min_count (mostCommon (t.corpusTokens sp batch))
    (maxVal t.tk2id + 1) t.tk2id t.id2tk).1 = t.tk2id
  rw [vocabLoop_stop _ _ _ _ _ _ h]

/-- C1 amended: the admission loop stops exactly when the running next
id (max existing id + 1, equal to the size only when the ids are the
contiguous range from 0) reaches max_vocab — in particular a build
admits nothing once max(ids) + 1 ≥ max_vocab; and size() ≤ max_vocab
holds after any sequence of builds for every instance whose size is at
most max(ids) + 1 (true of every id assignment without duplicate ids,
in particular the specials-only construction) and whose initial size is
at most max_vocab. -/
theorem build_vocab_cap_amended :
    (∀ (t : Tknzr) (sp : String → List String) (batch : List String),
      t.max_vocab ≤ ((maxVal t.tk2id + 1 : Nat) : Int) →
      (t.build_vocab sp batch).tk2id = t.tk2id) ∧
    (∀ (t : Tknzr) (sp : String → List String) (batches : List (List String)),
      t.tk2id.length ≤ maxVal t.tk2id + 1 →
      (t.vocab_size : Int) ≤ t.max_vocab →
      ((t.buildSeq sp batches).vocab_size : Int) ≤ t.max_vocab) :=
  ⟨fun t sp batch h => build_vocab_tk2id_eq_of_full t sp batch h,
   fun t sp batches h1 h2 => buildSeq_cap t sp batches h1 h2⟩

/-- Witness for the amended statement of C1 at concrete instances: a full
instance (max_vocab 3 < next id 4) is left unchanged, and a
specials-only instance with max_vocab 10 keeps its size at most 10
after building. -/
theorem build_vocab_cap_amended_witness :
    ((mkTknzr false 3 1).build_vocab wsSplit ["a"]).tk2id = (mkTknzr false 3 1).tk2id ∧
    (((mkTknzr false 10 2).buildSeq wsSplit [["a a"]]).vocab_size : Int) ≤ 10 :=
  ⟨build_vocab_cap_amended.1 (mkTknzr false 3 1) wsSplit ["a"] (by decide),
   build_vocab_cap_amended.2 (mkTknzr false 10 2) wsSplit [["a a"]] (by decide) (by decide)⟩

/-- Witness for C7 at concrete inputs: the specials-only tokenizer
encodes the out-of-vocabulary token "z" to the unk id at position 1,
decodes the unmapped id 9 to the unk token, and keeps both unk ids of
[3, 3] under remove_special. -/
theorem unknown_goes_to_unk_witness :
    ((mkTknzr false 10 1).enc wsSplit "z" (-1)).get? 1 = some unk_tkid ∧
    ((mkTknzr false 10 1).decTks [9] false).get? 0 = some unk_tk ∧
    [3, 3].count unk_tkid ≤ ((mkTknzr false 10 1).decTks [3, 3] true).count unk_tk :=
  ⟨unknown_goes_to_unk.1 (mkTknzr false 10 1) wsSplit "z" 0 "z" (by decide) (by decide),
   unknown_goes_to_unk.2.1 (mkTknzr false 10 1) [9] 0 9 (by decide) (by decide),
   unknown_goes_to_unk.2.2.2 (mkTknzr false 10 1) [3, 3] (by decide)⟩
